import Mathlib

/-!
Verification of the funcnodes_core node trigger state machine, event emitter,
class registry and shelf library against their natural-language specification.

The definitions below are shallow embeddings of the Python source in
`src/funcnodes_core` (files `node.py`, `eventmanager.py`, `lib/lib.py`):

* machine floats (`time.perf_counter` durations, rolling averages,
  pretrigger delays) are modelled as rationals `ℚ`;
* the mutable node / emitter / registry / library state is passed explicitly;
* raising an exception is modelled as returning the untouched state together
  with a `some`-error tag (Python raises before any assignment on those paths).
-/

namespace FuncnodesCore

/-! ## Node trigger state (`node.py`)

The fields of `NodeState` are the attributes of `Node` that the trigger
machinery reads and writes:

* `inputsReady`: the value of `ip.ready()` for each element of `self._inputs`
  (the port implementation is an external collaborator, so readiness is a
  per-input boolean snapshot);
* `triggerstack`: `self._triggerstack`, `none` for `None`, `some d` for a
  present `TriggerStack` whose `done()` currently returns `d`;
* `triggerOpen`: `self._trigger_open`;
* `requestsTrigger`: `self._requests_trigger`.
-/

structure NodeState where
  inputsReady : List Bool
  triggerstack : Option Bool
  triggerOpen : Bool
  requestsTrigger : Bool
deriving DecidableEq, Repr

/-- `Node.inputs_ready`: `all(map(lambda x: x.ready(), self._inputs))`. -/
def inputs_ready (s : NodeState) : Bool :=
  s.inputsReady.all (fun b => b)

/-- `Node.ready`: `return self.inputs_ready()`. -/
def ready (s : NodeState) : Bool :=
  inputs_ready s

/-- `Node.in_trigger` (property): if `self._triggerstack` is not `None` and is
done it is reset to `None`; the returned value is
`self._triggerstack is not None or self._trigger_open`.  The property both
mutates and returns, so it is modelled as a state-and-value pair. -/
def in_trigger (s : NodeState) : NodeState × Bool :=
  let s₁ :=
    match s.triggerstack with
    | some d => if d then { s with triggerstack := none } else s
    | none => s
  (s₁, s₁.triggerstack.isSome || s₁.triggerOpen)

/-- `Node.ready_to_trigger`: returns `False` when `asyncio.get_running_loop()`
raises (no running loop, passed here as the ambient flag `loop`), else
`self.ready() and not self.in_trigger`.  Python's `and` short-circuits, so
`in_trigger` (and its stack normalisation) is only evaluated when `ready()`
is true. -/
def ready_to_trigger (loop : Bool) (s : NodeState) : NodeState × Bool :=
  if loop then
    if ready s then
      let p := in_trigger s
      (p.1, !p.2)
    else (s, false)
  else (s, false)

/-- `Node.trigger`: raises `InTriggerError` when `self.in_trigger` holds
(modelled as a `some ()` error tag with the state as left by the property
read); otherwise opens the trigger window, installs a fresh running (not yet
done) trigger stack, and clears `_requests_trigger`. -/
def trigger (s : NodeState) : NodeState × Option Unit :=
  let p := in_trigger s
  if p.2 then
    (p.1, some ())
  else
    ({ p.1 with
        triggerOpen := true
        triggerstack := some false
        requestsTrigger := false }, none)

/-! ## Rolling latency average and speed classification (`node.py`)

`NodeConstants.TRIGGER_SPEED_FAST = 0.2` and
`NodeConstants.TRIGGER_SPEED_MEDIUM = 1`, as rationals. -/

def TRIGGER_SPEED_FAST : ℚ := 1/5

def TRIGGER_SPEED_MEDIUM : ℚ := 1

/-- The flag values of `NodeFlags` used for `self._trigger_speed_flag`. -/
inductive SpeedFlag where
  | fast
  | medium
  | slow
deriving DecidableEq, Repr

/-- The rolling-average state of a node: `self._rolling_tigger_time` (an
optional float, `is None`-checked in `__call__`) and
`self._trigger_speed_flag`. -/
structure SpeedState where
  rolling : Option ℚ
  flag : SpeedFlag
deriving DecidableEq, Repr

/-- The rolling update in `Node.__call__`:
`_trigger_time if self._rolling_tigger_time is None
 else (0.9 * self._rolling_tigger_time + 0.1 * _trigger_time)`. -/
def ema_update (old : Option ℚ) (dur : ℚ) : ℚ :=
  match old with
  | none => dur
  | some o => 9/10 * o + 1/10 * dur

/-- The reclassification in `Node.__call__`: `FAST` when the rolling time is
`<= TRIGGER_SPEED_FAST`, else `MEDIUM` when `<= TRIGGER_SPEED_MEDIUM`, else
`SLOW`. -/
def classify_speed (avg : ℚ) : SpeedFlag :=
  if avg ≤ TRIGGER_SPEED_FAST then .fast
  else if avg ≤ TRIGGER_SPEED_MEDIUM then .medium
  else .slow

/-- The effect of one successful execution in `Node.__call__` on the
rolling-average state: the rolling time is updated with the measured duration
and the speed flag is recomputed from the new rolling time. -/
def node_call_success (st : SpeedState) (dur : ℚ) : SpeedState :=
  let r := ema_update st.rolling dur
  { rolling := some r, flag := classify_speed r }

/-- A sequence of successful executions with the given durations. -/
def run_node_calls (st : SpeedState) (ds : List ℚ) : SpeedState :=
  ds.foldl node_call_success st

/-- The closed form of the 0.9 / 0.1 exponential moving average over a
duration sequence. -/
def emaFold (a : ℚ) (ds : List ℚ) : ℚ :=
  ds.foldl (fun a d => 9/10 * a + 1/10 * d) a

/-! ## Pretrigger delay (`node.py`)

`Node.__init__` stores
`float(pretrigger_delay) if pretrigger_delay is not None and
float(pretrigger_delay) >= 0 else float(self.default_pretrigger_delay)`;
the `pretrigger_delay` setter substitutes the default for `None`, raises
`ValueError` on a negative value (before assigning), and stores the value
otherwise. -/

def init_pretrigger_delay (default : ℚ) (p : Option ℚ) : ℚ :=
  match p with
  | some v => if 0 ≤ v then v else default
  | none => default

/-- The `pretrigger_delay` setter as a transformer of the stored delay `cur`;
`some ()` tags the raised `ValueError`. -/
def set_pretrigger_delay (default cur : ℚ) (v : Option ℚ) : ℚ × Option Unit :=
  let w := v.getD default
  if w < 0 then (cur, some ()) else (w, none)

/-! ## Event emitter (`eventmanager.py`)

Listeners are abstract callback identities.  The callbacks the module itself
constructs are of two kinds: plain user callbacks (which do not touch the
listener lists) and the self-deregistering wrappers installed by
`once(event_name, callback)` (which call `off(event_name, wrapper)` and then
the wrapped callback).  The wrapper closure captures the event name it was
registered under. -/

inductive CB where
  | plain (id : ℕ)
  | onceWrap (ev : String) (id : ℕ)
deriving DecidableEq, Repr

/-- `self._events`: a dict from event name to the listener list. -/
structure EmitterState where
  events : List (String × List CB)
deriving DecidableEq, Repr

def lookupEv : List (String × List CB) → String → Option (List CB)
  | [], _ => none
  | (k, l) :: rest, e => if k = e then some l else lookupEv rest e

def setEv : List (String × List CB) → String → List CB → List (String × List CB)
  | [], _, _ => []
  | (k, l) :: rest, e, l' => if k = e then (k, l') :: rest else (k, l) :: setEv rest e l'

def removeEv : List (String × List CB) → String → List (String × List CB)
  | [], _ => []
  | (k, l) :: rest, e => if k = e then rest else (k, l) :: removeEv rest e

/-- `EventEmitterMixin.off(event_name, callback)` with a non-`None` callback
(the form the `once` wrapper uses): remove the first occurrence of the
callback from the event's listener list, and drop the event entry entirely
when the list becomes empty. -/
def off (st : EmitterState) (e : String) (cb : CB) : EmitterState :=
  match lookupEv st.events e with
  | none => st
  | some l =>
    let l' := if cb ∈ l then l.erase cb else l
    if l'.length = 0 then ⟨removeEv st.events e⟩ else ⟨setEv st.events e l'⟩

/-- Invoking one callback during dispatch: a plain callback records its id;
a `once` wrapper first deregisters itself (`off`) and then records the
wrapped callback's id. -/
def invokeCB (st : EmitterState) (cb : CB) : EmitterState × ℕ :=
  match cb with
  | .plain i => (st, i)
  | .onceWrap ev i => (off st ev (.onceWrap ev i), i)

/-- The dispatch loop `for callback in self._events[event_name]: ...` of
`emit`, with Python's live-list iteration semantics: the loop keeps an index
into the list object while the wrapper's `off` may remove elements from it
(the only mutation our callbacks perform), so the current list is re-read at
each step.  `fuel` is the length of the list when the loop starts, which
bounds the number of iterations because the index grows and the list never
grows during dispatch. -/
def emitLoop (st : EmitterState) (e : String) (i : ℕ) : ℕ → EmitterState × List ℕ
  | 0 => (st, [])
  | fuel + 1 =>
    let l := (lookupEv st.events e).getD []
    if h : i < l.length then
      let p := invokeCB st (l.get ⟨i, h⟩)
      let q := emitLoop p.1 e (i + 1) fuel
      (q.1, p.2 :: q.2)
    else (st, [])

/-- One recorded invocation performed by `emit`: the callback id, and for
wildcard listeners the event name that was passed as the extra `event`
field. -/
structure Call where
  cb : ℕ
  star : Option String
deriving DecidableEq, Repr

/-- `EventEmitterMixin.emit(event_name, msg)`: run the listeners registered
for the event, then the listeners registered for `"*"` (which receive the
event name as an extra field); return the final state, whether any listener
ran, and the invocations in order. -/
def emit (st : EmitterState) (e : String) : EmitterState × Bool × List Call :=
  let l₀ := (lookupEv st.events e).getD []
  let p := emitLoop st e 0 l₀.length
  let l₁ := (lookupEv p.1.events "*").getD []
  let q := emitLoop p.1 "*" 0 l₁.length
  (q.1, !p.2.isEmpty || !q.2.isEmpty,
    p.2.map (fun i => ⟨i, none⟩) ++ q.2.map (fun i => ⟨i, some e⟩))

/-- `EventEmitterMixin.error(e)` over `self._error_events` (a plain list of
error callbacks): when listeners exist, each is called with
`(error=e, src=self)` in order and `True` is returned; with no listeners the
exception is re-raised (`Except.error`).  Error payloads and the emitting
`src` object are abstract ids. -/
def errorLoop : List ℕ → ℕ → ℕ → List (ℕ × ℕ × ℕ)
  | [], _, _ => []
  | cb :: rest, e, src => (cb, e, src) :: errorLoop rest e src

def errorEmit (ls : List ℕ) (e src : ℕ) : Except ℕ (List (ℕ × ℕ × ℕ) × Bool) :=
  if 0 < ls.length then .ok (errorLoop ls e src, true) else .error e

/-! ## Node class registry (`node.py`)

A node class is abstracted by the attributes `register_node` reads:
`__module__`, `__name__` and `node_id`.  `REGISTERED_NODES` is a
`WeakValueDictionary`; the claims below concern ids whose entries are present
and resolvable, so the weak references (and the `gc.collect()` pass that
clears stale ones) are not modelled: the registry is a plain insertion-ordered
map.  `ALLOW_REGISTERED_NODES_OVERRIDE` is the constant `False`. -/

structure NodeClass where
  module : String
  clsName : String
  nodeId : String
deriving DecidableEq, Repr

abbrev Registry := List (String × NodeClass)

def lookupReg : Registry → String → Option NodeClass
  | [], _ => none
  | (k, c) :: rest, e => if k = e then some c else lookupReg rest e

def setReg : Registry → String → NodeClass → Registry
  | [], _, _ => []
  | (k, c) :: rest, e, c' =>
    if k = e then (k, c') :: rest else (k, c) :: setReg rest e c'

inductive RegError where
  | nodeIdAlreadyExists
deriving DecidableEq, Repr

/-- `register_node(node_class)`: when the id is already present the old and
new `__module__ + __name__` concatenations are compared; a mismatch raises
`NodeIdAlreadyExistsError` (before any assignment, so the registry is
returned unchanged), otherwise `REGISTERED_NODES[node_id] = node_class` is
executed (replacing an existing entry in place, appending a new one). -/
def register_node (reg : Registry) (c : NodeClass) : Registry × Option RegError :=
  match lookupReg reg c.nodeId with
  | some old =>
    if old.module ++ old.clsName = c.module ++ c.clsName then
      (setReg reg c.nodeId c, none)
    else (reg, some .nodeIdAlreadyExists)
  | none => (reg ++ [(c.nodeId, c)], none)

/-! ## Shelf library records (`lib/lib.py`)

`Library._records` is a flat dict from path tuples to `_ShelfRecord`s. -/

abbrev Path := List String

structure ShelfRecord where
  name : String
  description : String
  nodes_ref : List String
deriving DecidableEq, Repr

abbrev Records := List (Path × ShelfRecord)

def lookupRec : Records → Path → Option ShelfRecord
  | [], _ => none
  | (k, r) :: rest, p => if k = p then some r else lookupRec rest p

/-- `Library.find_nodeid`'s scan over `self._records.items()`: collect the
paths of the records containing the id, stopping after the first hit when
`all` is false. -/
def findLoop (nodeid : String) (all : Bool) : Records → List Path
  | [] => []
  | (key, rec) :: rest =>
    if nodeid ∈ rec.nodes_ref then
      if all then key :: findLoop nodeid all rest else [key]
    else findLoop nodeid all rest

/-- `Library.find_nodeid(nodeid, all)`: an id that does not currently resolve
in `REGISTERED_NODES` yields no hits; otherwise the matching record paths are
collected.  The records themselves are only read. -/
def find_nodeid (reg : Registry) (recs : Records) (nodeid : String)
    (all : Bool) : List Path :=
  if (lookupReg reg nodeid).isNone then [] else findLoop nodeid all recs

/-! ## Shelf trees and the merge (`lib/lib.py`)

A `Shelf` input to `Library.add_shelf` carries a name, a description, node
classes (of which the merge only reads `node_id`, so node-type-ids are stored
directly) and subshelves. -/

inductive Shelf where
  | mk (name description : String) (nodes : List String) (subshelves : List Shelf)

/-- `_unique_push(lst, value)`: append only if absent; preserves order. -/
def _unique_push (l : List String) (v : String) : List String :=
  if v ∈ l then l else l ++ [v]

/-- The `_ShelfRecord(name=key[-1], description="", nodes_ref=[])` created by
`_ensure_path_exists` for a missing key. -/
def defaultRecord (p : Path) : ShelfRecord :=
  ⟨p.getLastD "", "", []⟩

/-- The key sequence `path[:i] for i in range(1, len(path)+1)` walked by
`_ensure_path_exists`. -/
def pathSteps (p : Path) : List Path :=
  (List.range p.length).map (fun i => p.take (i + 1))

/-- One step of `_ensure_path_exists`: insert a default record if the key is
missing (a dict insert appends in iteration order). -/
def ensureStep (L : Records) (k : Path) : Records :=
  if (lookupRec L k).isSome then L else L ++ [(k, defaultRecord k)]

/-- `Library._ensure_path_exists(path)` (the path is nonempty whenever it is
called from `_add_shelf_tree`, so the empty-path `ValueError` is never
raised). -/
def _ensure_path_exists (L : Records) (p : Path) : Records :=
  (pathSteps p).foldl ensureStep L

/-- In-place mutation of the record stored at a key (Python mutates the
`_ShelfRecord` object, leaving the dict key order untouched). -/
def updateRec (L : Records) (p : Path) (f : ShelfRecord → ShelfRecord) : Records :=
  match L with
  | [] => []
  | (k, r) :: rest =>
    if k = p then (k, f r) :: rest else (k, r) :: updateRec rest p f

/-- The guarded description write of `_add_shelf_tree`:
`if src.description != rec.description: rec.description = src.description`. -/
def descUpdate (d : String) (r : ShelfRecord) : ShelfRecord :=
  if r.description = d then r else { r with description := d }

/-- The node-id merge of `_add_shelf_tree`:
`for node_cls in src.nodes: _unique_push(rec.nodes_ref, node_cls.node_id)`. -/
def pushUpdate (ids : List String) (r : ShelfRecord) : ShelfRecord :=
  { r with nodes_ref := ids.foldl _unique_push r.nodes_ref }

mutual

/-- `Library._add_shelf_tree(src, parent)`: ensure the path exists, update
the description (latest write wins), merge the node ids (order-preserving,
deduplicated), then recurse into the subshelves in order. -/
def _add_shelf_tree (L : Records) (src : Shelf) (parent : Path) : Records :=
  match src with
  | .mk n d nds subs =>
    addSubshelves
      (updateRec
        (updateRec (_ensure_path_exists L (parent ++ [n])) (parent ++ [n])
          (descUpdate d))
        (parent ++ [n]) (pushUpdate nds))
      subs (parent ++ [n])

/-- The recursion `for sub in src.subshelves: self._add_shelf_tree(sub, path)`. -/
def addSubshelves (L : Records) (subs : List Shelf) (p : Path) : Records :=
  match subs with
  | [] => L
  | s :: rest => addSubshelves (_add_shelf_tree L s p) rest p

end

/-- `Library.add_shelf(shelf)`: merge the tree at the top level. -/
def add_shelf (L : Records) (s : Shelf) : Records :=
  _add_shelf_tree L s []

/-! ### Write-sequence view of the merge

`_add_shelf_tree` performs a sequence of primitive writes whose parameters
depend only on the shelf tree, not on the record state; factoring the merge
through that sequence lets the effect at each key be analysed separately. -/

/-- A primitive write at one key: create-if-missing, set the description, or
push node ids. -/
inductive KOp where
  | ensure
  | desc (d : String)
  | push (ids : List String)
deriving DecidableEq, Repr

/-- The effect of one primitive write on the value stored at its own key
(`p` supplies the key's default-record name for `ensure`; `desc`/`push` are
only ever issued on keys that exist). -/
def applyKOp (p : Path) (v : Option ShelfRecord) : KOp → Option ShelfRecord
  | .ensure =>
    match v with
    | none => some (defaultRecord p)
    | some r => some r
  | .desc d =>
    match v with
    | none => none
    | some r => some (descUpdate d r)
  | .push ids =>
    match v with
    | none => none
    | some r => some (pushUpdate ids r)

/-- Applying a sequence of same-key writes to a stored value. -/
def applyK (p : Path) (v : Option ShelfRecord) : List KOp → Option ShelfRecord
  | [] => v
  | op :: σ => applyK p (applyKOp p v op) σ

/-- The effect of one primitive write on the whole record store. -/
def applyPrim (L : Records) : Path × KOp → Records
  | (p, .ensure) => ensureStep L p
  | (p, .desc d) => updateRec L p (descUpdate d)
  | (p, .push ids) => updateRec L p (pushUpdate ids)

def applyOps (L : Records) (ws : List (Path × KOp)) : Records :=
  ws.foldl applyPrim L

/-- The writes performed by `_ensure_path_exists`. -/
def ensureOps (p : Path) : List (Path × KOp) :=
  (pathSteps p).map (fun k => (k, KOp.ensure))

mutual

/-- The write sequence performed by `_add_shelf_tree`. -/
def shelfWrites (s : Shelf) (parent : Path) : List (Path × KOp) :=
  match s with
  | .mk n d nds subs =>
    ensureOps (parent ++ [n]) ++
      [(parent ++ [n], .desc d), (parent ++ [n], .push nds)] ++
      subWrites subs (parent ++ [n])

/-- The write sequence performed by the subshelf recursion. -/
def subWrites (subs : List Shelf) (p : Path) : List (Path × KOp) :=
  match subs with
  | [] => []
  | s :: rest => shelfWrites s p ++ subWrites rest p

end

/-- The writes of a sequence that target a given key. -/
def projK (ws : List (Path × KOp)) (p : Path) : List KOp :=
  match ws with
  | [] => []
  | (k, op) :: rest => if k = p then op :: projK rest p else projK rest p

/-- The last description written by a same-key write sequence, if any. -/
def lastDescO : List KOp → Option String
  | [] => none
  | .desc d :: σ =>
    match lastDescO σ with
    | some d' => some d'
    | none => some d
  | _ :: σ => lastDescO σ

/-- All node ids pushed by a same-key write sequence, in order. -/
def pushedIds : List KOp → List String
  | [] => []
  | .push ids :: σ => ids ++ pushedIds σ
  | _ :: σ => pushedIds σ

/-- Well-formedness of a same-key write sequence: every `desc`/`push` is
preceded by an `ensure` (as is the case for the sequences `_add_shelf_tree`
issues, where `_ensure_path_exists` runs first). -/
def wfOps (seen : Bool) : List KOp → Bool
  | [] => true
  | .ensure :: σ => wfOps true σ
  | .desc _ :: σ => seen && wfOps seen σ
  | .push _ :: σ => seen && wfOps seen σ

/-! ## Theorems about the trigger state machine -/

/-- C1: `N.ready_to_trigger()` returns true iff a running event loop is
available, every input reports `ready() == true`, and the node is not
`in_trigger`, i.e. it has no active unfinished trigger stack and its
trigger-open flag is unset. -/
theorem C1_ready_to_trigger_iff (loop : Bool) (s : NodeState) :
    (ready_to_trigger loop s).2 = true ↔
      loop = true ∧ (∀ b ∈ s.inputsReady, b = true) ∧
        ¬(s.triggerstack = some false ∨ s.triggerOpen = true) := by
  rcases s with ⟨ins, ts, op, rq⟩
  have key : (ready_to_trigger loop ⟨ins, ts, op, rq⟩).2 =
      (loop && inputs_ready ⟨ins, ts, op, rq⟩ && !((ts == some false) || op)) := by
    cases loop with
    | false => rfl
    | true =>
      cases hr : inputs_ready ⟨ins, ts, op, rq⟩ with
      | false => simp [ready_to_trigger, ready, hr]
      | true =>
        cases ts with
        | none => simp [ready_to_trigger, ready, hr, in_trigger]
        | some d => cases d <;> simp [ready_to_trigger, ready, hr, in_trigger]
  rw [key]
  simp only [Bool.and_eq_true, Bool.not_eq_true', Bool.or_eq_false_iff,
    beq_eq_false_iff_ne, ne_eq, inputs_ready, List.all_eq_true]
  constructor
  · rintro ⟨⟨hl, hi⟩, hs, ho⟩
    exact ⟨hl, hi, by rintro (h | h) <;> simp_all⟩
  · rintro ⟨hl, hi, hn⟩
    refine ⟨⟨hl, hi⟩, ?_, ?_⟩
    · intro h; exact hn (Or.inl h)
    · cases op with
      | false => rfl
      | true => exact absurd (Or.inr rfl) hn

/-- C2 (amended): triggering a node that is `in_trigger` always raises
`InTriggerError` and never queues: `_trigger_open`, `_requests_trigger` and
the inputs are left unchanged, and `_triggerstack` is left unchanged unless it
held an already-finished stack, in which case the `in_trigger` property read
has cleared it to `None`. -/
theorem C2_trigger_in_trigger_raises (s : NodeState)
    (h : (in_trigger s).2 = true) :
    (trigger s).2 = some () ∧
    (trigger s).1.triggerOpen = s.triggerOpen ∧
    (trigger s).1.requestsTrigger = s.requestsTrigger ∧
    (trigger s).1.inputsReady = s.inputsReady ∧
    ((trigger s).1.triggerstack = s.triggerstack ∨
      (s.triggerstack = some true ∧ (trigger s).1.triggerstack = none)) := by
  rcases s with ⟨ins, ts, op, rq⟩
  cases ts with
  | none =>
    simp [in_trigger] at h
    simp [trigger, in_trigger, h]
  | some d =>
    cases d with
    | false => simp [trigger, in_trigger]
    | true =>
      simp [in_trigger] at h
      simp [trigger, in_trigger, h]

/-- C2 witness: a node with an active, unfinished trigger stack. -/
theorem C2_trigger_in_trigger_raises_witness :
    (in_trigger ⟨[], some false, false, true⟩).2 = true ∧
    ((trigger ⟨[], some false, false, true⟩).2 = some () ∧
     (trigger ⟨[], some false, false, true⟩).1.triggerOpen =
       (⟨[], some false, false, true⟩ : NodeState).triggerOpen ∧
     (trigger ⟨[], some false, false, true⟩).1.requestsTrigger =
       (⟨[], some false, false, true⟩ : NodeState).requestsTrigger ∧
     (trigger ⟨[], some false, false, true⟩).1.inputsReady =
       (⟨[], some false, false, true⟩ : NodeState).inputsReady ∧
     ((trigger ⟨[], some false, false, true⟩).1.triggerstack =
        (⟨[], some false, false, true⟩ : NodeState).triggerstack ∨
      ((⟨[], some false, false, true⟩ : NodeState).triggerstack = some true ∧
       (trigger ⟨[], some false, false, true⟩).1.triggerstack = none))) :=
  ⟨by decide, C2_trigger_in_trigger_raises ⟨[], some false, false, true⟩ (by decide)⟩

/-- C2 counterexample: for a node whose trigger stack is present but already
finished and whose trigger-open flag is set, the node is `in_trigger` and
`trigger()` raises, but `_triggerstack` is not left unchanged: the
`in_trigger` property read clears the finished stack to `None`. -/
theorem C2_trigger_state_unchanged_cex :
    (in_trigger ⟨[], some true, true, false⟩).2 = true ∧
    (trigger ⟨[], some true, true, false⟩).2 = some () ∧
    ¬((trigger ⟨[], some true, true, false⟩).1.triggerstack =
        (⟨[], some true, true, false⟩ : NodeState).triggerstack) := by
  decide

/-- Helper: the rolling time after a run of successful executions starting
from a present rolling average is the folded exponential moving average. -/
theorem run_node_calls_rolling (a : ℚ) (f : SpeedFlag) (ds : List ℚ) :
    (run_node_calls ⟨some a, f⟩ ds).rolling = some (emaFold a ds) := by
  induction ds generalizing a f with
  | nil => rfl
  | cons d ds ih =>
    simpa [run_node_calls, emaFold, node_call_success, ema_update] using
      ih (9/10 * a + 1/10 * d) (classify_speed (9/10 * a + 1/10 * d))

/-- Helper: the speed flag is `FAST` exactly when the average is `≤ 0.2`. -/
theorem classify_speed_fast_iff (a : ℚ) :
    classify_speed a = .fast ↔ a ≤ 1/5 := by
  unfold classify_speed TRIGGER_SPEED_FAST TRIGGER_SPEED_MEDIUM
  split_ifs with h1 h2
  · exact iff_of_true rfl h1
  · exact iff_of_false (by decide) h1
  · exact iff_of_false (by decide) h1

/-- Helper: the speed flag is `MEDIUM` exactly when the average is in
`(0.2, 1]`. -/
theorem classify_speed_medium_iff (a : ℚ) :
    classify_speed a = .medium ↔ (1/5 < a ∧ a ≤ 1) := by
  unfold classify_speed TRIGGER_SPEED_FAST TRIGGER_SPEED_MEDIUM
  split_ifs with h1 h2
  · exact iff_of_false (by decide) (by rintro ⟨h, -⟩; linarith)
  · exact iff_of_true rfl ⟨lt_of_not_le h1, h2⟩
  · exact iff_of_false (by decide) (by rintro ⟨-, h⟩; exact h2 h)

/-- Helper: the speed flag is `SLOW` exactly when the average exceeds `1`. -/
theorem classify_speed_slow_iff (a : ℚ) :
    classify_speed a = .slow ↔ 1 < a := by
  unfold classify_speed TRIGGER_SPEED_FAST TRIGGER_SPEED_MEDIUM
  split_ifs with h1 h2
  · exact iff_of_false (by decide) (by intro h; linarith)
  · exact iff_of_false (by decide) (not_lt.mpr h2)
  · exact iff_of_true rfl (lt_of_not_le h2)

/-- C3: after any history of completed executions, the next completed
execution recomputes the rolling latency average as
`0.9 * old + 0.1 * duration`, and the resulting speed flag is `FAST` iff the
new average is `≤ 0.2`, `MEDIUM` iff it is in `(0.2, 1]`, and `SLOW` iff it
exceeds `1`. -/
theorem C3_rolling_average_and_classification (a0 : ℚ) (f0 : SpeedFlag)
    (ds : List ℚ) (d : ℚ) :
    (node_call_success (run_node_calls ⟨some a0, f0⟩ ds) d).rolling
        = some (9/10 * emaFold a0 ds + 1/10 * d) ∧
    ((node_call_success (run_node_calls ⟨some a0, f0⟩ ds) d).flag = .fast ↔
        9/10 * emaFold a0 ds + 1/10 * d ≤ 1/5) ∧
    ((node_call_success (run_node_calls ⟨some a0, f0⟩ ds) d).flag = .medium ↔
        (1/5 < 9/10 * emaFold a0 ds + 1/10 * d ∧
          9/10 * emaFold a0 ds + 1/10 * d ≤ 1)) ∧
    ((node_call_success (run_node_calls ⟨some a0, f0⟩ ds) d).flag = .slow ↔
        1 < 9/10 * emaFold a0 ds + 1/10 * d) := by
  have h := run_node_calls_rolling a0 f0 ds
  have hstep : node_call_success (run_node_calls ⟨some a0, f0⟩ ds) d =
      ⟨some (9/10 * emaFold a0 ds + 1/10 * d),
        classify_speed (9/10 * emaFold a0 ds + 1/10 * d)⟩ := by
    simp [node_call_success, ema_update, h]
  rw [hstep]
  exact ⟨rfl, classify_speed_fast_iff _, classify_speed_medium_iff _,
    classify_speed_slow_iff _⟩

/-- C10: constructing a node with a negative `pretrigger_delay` silently
substitutes the (nonnegative) class default, whereas assigning a negative
value through the `pretrigger_delay` setter raises `ValueError` and leaves
the stored delay unchanged; in both cases the stored delay stays `≥ 0`. -/
theorem C10_pretrigger_delay (d : ℚ) (hd : 0 ≤ d) (p : Option ℚ) (cur : ℚ)
    (hc : 0 ≤ cur) (v : Option ℚ) :
    (∀ x, p = some x → x < 0 → init_pretrigger_delay d p = d) ∧
    0 ≤ init_pretrigger_delay d p ∧
    (∀ x, v = some x → x < 0 → set_pretrigger_delay d cur v = (cur, some ())) ∧
    0 ≤ (set_pretrigger_delay d cur v).1 := by
  refine ⟨?_, ?_, ?_, ?_⟩
  · intro x hx hneg
    subst hx
    simp [init_pretrigger_delay, not_le.mpr hneg]
  · cases p with
    | none => simpa [init_pretrigger_delay] using hd
    | some x =>
      by_cases hx : 0 ≤ x <;> simp [init_pretrigger_delay, hx, hd]
  · intro x hx hneg
    subst hx
    simp [set_pretrigger_delay, hneg]
  · cases v with
    | none =>
      by_cases hneg : d < 0
      · simp [set_pretrigger_delay, hneg, hc]
      · simp [set_pretrigger_delay, hneg]
        linarith
    | some x =>
      by_cases hneg : x < 0
      · simp [set_pretrigger_delay, hneg, hc]
      · simp [set_pretrigger_delay, hneg]
        linarith

/-! ## Theorems about the event emitter -/

/-- C4 (code bug): with listeners `[once-wrapper w, plain cb]` registered for
`"test"`, emitting `"test"` invokes the wrapped callback (id 1) and removes
the wrapper, but the plain listener (id 2) — although registered before the
dispatch and still registered after it — is skipped: the wrapper's
self-removal shifts the list under the live iteration index.  The repository's
own test (`test_event_manager_modification_during_emit`) asserts that the
plain listener is still called. -/
theorem C4_once_skips_next_listener :
    emit ⟨[("test", [.onceWrap "test" 1, .plain 2])]⟩ "test"
      = (⟨[("test", [.plain 2])]⟩, true, [⟨1, none⟩]) ∧
    CB.plain 2 ∈
      ((lookupEv [("test", [CB.onceWrap "test" 1, CB.plain 2])] "test").getD []) ∧
    (⟨2, none⟩ : Call) ∉
      (emit ⟨[("test", [.onceWrap "test" 1, .plain 2])]⟩ "test").2.2 := by
  decide

/-- C5 (code bug): `emit` is meant to invoke every listener of the event in
insertion order and then every wildcard listener with the event name as an
extra field, returning whether any listener ran.  With listeners
`[once-wrapper w₃, plain c₄]` on `"evt"` and a wildcard listener `c₇`,
the dispatch invokes `w₃` and `c₇` but skips `c₄`, which stays registered:
the emitted call list is `[3, (7, "evt")]` instead of the specified
`[3, 4, (7, "evt")]`. -/
theorem C5_emit_misses_registered_listener :
    emit ⟨[("evt", [.onceWrap "evt" 3, .plain 4]), ("*", [.plain 7])]⟩ "evt"
      = (⟨[("evt", [.plain 4]), ("*", [.plain 7])]⟩, true,
          [⟨3, none⟩, ⟨7, some "evt"⟩]) ∧
    CB.plain 4 ∈
      ((lookupEv [("evt", [CB.onceWrap "evt" 3, CB.plain 4]),
          ("*", [CB.plain 7])] "evt").getD []) ∧
    (⟨4, none⟩ : Call) ∉
      (emit ⟨[("evt", [.onceWrap "evt" 3, .plain 4]), ("*", [.plain 7])]⟩
          "evt").2.2 := by
  decide

/-- Helper: the error-dispatch loop calls each registered error listener with
the error and the source, in registration order. -/
theorem errorLoop_eq_map (ls : List ℕ) (e src : ℕ) :
    errorLoop ls e src = ls.map (fun cb => (cb, e, src)) := by
  induction ls with
  | nil => rfl
  | cons a t ih => simp [errorLoop, ih]

/-- C9: `error(e)` invokes every registered error listener with
`(error = e, src = emitter)` in order and returns true when at least one
error listener is registered; with no error listeners it re-raises `e` to
the caller. -/
theorem C9_error_reraises_without_listeners (ls : List ℕ) (e src : ℕ) :
    (ls ≠ [] →
      errorEmit ls e src = .ok (ls.map (fun cb => (cb, e, src)), true)) ∧
    (ls = [] → errorEmit ls e src = .error e) := by
  constructor
  · intro h
    have hl : 0 < ls.length := List.length_pos.mpr h
    simp [errorEmit, hl, errorLoop_eq_map]
  · intro h
    subst h
    simp [errorEmit]

/-- C9 witness: one registered error listener, and none. -/
theorem C9_error_reraises_without_listeners_witness :
    errorEmit [5] 1 2 = .ok ([(5, 1, 2)], true) ∧
    errorEmit [] 1 2 = .error 1 :=
  ⟨by simpa using (C9_error_reraises_without_listeners [5] 1 2).1 (by simp),
    (C9_error_reraises_without_listeners [] 1 2).2 rfl⟩

/-! ## Theorems about the shelf merge (C7) -/

theorem applyOps_append (L : Records) (a b : List (Path × KOp)) :
    applyOps L (a ++ b) = applyOps (applyOps L a) b := by
  simp [applyOps, List.foldl_append]

/-- `_ensure_path_exists` is the application of its `ensure` writes. -/
theorem ensure_factor (L : Records) (p : Path) :
    _ensure_path_exists L p = applyOps L (ensureOps p) := by
  unfold _ensure_path_exists ensureOps applyOps
  rw [List.foldl_map]
  rfl

mutual

/-- `_add_shelf_tree` is the application of its write sequence. -/
theorem add_factor (L : Records) (s : Shelf) (parent : Path) :
    _add_shelf_tree L s parent = applyOps L (shelfWrites s parent) := by
  match s with
  | .mk n d nds subs =>
    rw [_add_shelf_tree, shelfWrites,
      subs_factor _ subs (parent ++ [n]), ensure_factor,
      applyOps_append, applyOps_append]
    rfl

/-- `addSubshelves` is the application of its write sequence. -/
theorem subs_factor (L : Records) (subs : List Shelf) (p : Path) :
    addSubshelves L subs p = applyOps L (subWrites subs p) := by
  match subs with
  | [] => rfl
  | s :: rest =>
    rw [addSubshelves, subWrites, add_factor L s p, applyOps_append,
      subs_factor _ rest p]

end

theorem lookupRec_append (L M : Records) (p : Path) :
    lookupRec (L ++ M) p =
      match lookupRec L p with
      | some r => some r
      | none => lookupRec M p := by
  induction L with
  | nil => simp [lookupRec]
  | cons kr rest ih =>
    obtain ⟨k, r⟩ := kr
    by_cases hk : k = p <;> simp [lookupRec, hk, ih]

theorem lookupRec_updateRec (L : Records) (p q : Path)
    (f : ShelfRecord → ShelfRecord) :
    lookupRec (updateRec L p f) q =
      if p = q then (lookupRec L q).map f else lookupRec L q := by
  induction L with
  | nil => simp [lookupRec, updateRec]
  | cons kr rest ih =>
    obtain ⟨k, r⟩ := kr
    by_cases hk : k = p
    · subst hk
      by_cases hq : k = q
      · subst hq
        simp [updateRec, lookupRec]
      · simp [updateRec, lookupRec, hq]
    · by_cases hq : k = q
      · subst hq
        have hpq : ¬p = k := fun h => hk h.symm
        simp [updateRec, hk, lookupRec, hpq]
      · simp [updateRec, hk, lookupRec, hq, ih]

theorem applyKOp_desc (p : Path) (v : Option ShelfRecord) (d : String) :
    applyKOp p v (.desc d) = v.map (descUpdate d) := by
  cases v <;> rfl

theorem applyKOp_push (p : Path) (v : Option ShelfRecord) (ids : List String) :
    applyKOp p v (.push ids) = v.map (pushUpdate ids) := by
  cases v <;> rfl

/-- The store-level effect of one write, seen through `lookupRec`. -/
theorem lookupRec_applyPrim (L : Records) (k : Path) (op : KOp) (p : Path) :
    lookupRec (applyPrim L (k, op)) p =
      if k = p then applyKOp p (lookupRec L p) op else lookupRec L p := by
  cases op with
  | ensure =>
    have hstep : applyPrim L (k, KOp.ensure) = ensureStep L k := rfl
    rw [hstep]
    by_cases hk : k = p
    · subst hk
      rw [if_pos rfl]
      unfold ensureStep
      cases hs : lookupRec L k with
      | some r => simp [hs, applyKOp]
      | none => simp [hs, lookupRec_append, applyKOp, lookupRec]
    · rw [if_neg hk]
      unfold ensureStep
      cases hs : lookupRec L k with
      | some r => simp
      | none =>
        simp only [Option.isSome_none, Bool.false_eq_true, if_false,
          lookupRec_append]
        cases hp : lookupRec L p <;> simp [lookupRec, hk]
  | desc d =>
    show lookupRec (updateRec L k (descUpdate d)) p = _
    rw [lookupRec_updateRec, applyKOp_desc]
  | push ids =>
    show lookupRec (updateRec L k (pushUpdate ids)) p = _
    rw [lookupRec_updateRec, applyKOp_push]

/-- The effect of a write sequence at one key is the application of that
key's writes to that key's stored value. -/
theorem lookupRec_applyOps (L : Records) (ws : List (Path × KOp)) (p : Path) :
    lookupRec (applyOps L ws) p = applyK p (lookupRec L p) (projK ws p) := by
  induction ws generalizing L with
  | nil => rfl
  | cons w rest ih =>
    obtain ⟨k, op⟩ := w
    have h0 : applyOps L ((k, op) :: rest) = applyOps (applyPrim L (k, op)) rest :=
      rfl
    rw [h0, ih, lookupRec_applyPrim]
    by_cases hk : k = p
    · simp [projK, hk, applyK]
    · simp [projK, hk]

/-- The guarded description write always results in the requested
description. -/
theorem descUpdate_eq (d : String) (r : ShelfRecord) :
    descUpdate d r = ⟨r.name, d, r.nodes_ref⟩ := by
  obtain ⟨a, b, c⟩ := r
  by_cases h : b = d
  · subst h
    simp [descUpdate]
  · simp [descUpdate, h]

/-- Closed form of a same-key write sequence on a present record: the name is
kept, the last written description wins, and all pushed ids are appended with
deduplication. -/
theorem applyK_some (p : Path) (r : ShelfRecord) (σ : List KOp) :
    applyK p (some r) σ =
      some ⟨r.name, (lastDescO σ).getD r.description,
        List.foldl _unique_push r.nodes_ref (pushedIds σ)⟩ := by
  induction σ generalizing r with
  | nil =>
    obtain ⟨a, b, c⟩ := r
    rfl
  | cons op σ ih =>
    cases op with
    | ensure =>
      have hstep : applyK p (some r) (KOp.ensure :: σ) = applyK p (some r) σ :=
        rfl
      rw [hstep, ih r]
      rfl
    | desc d =>
      have hstep : applyK p (some r) (KOp.desc d :: σ) =
          applyK p (some (descUpdate d r)) σ := rfl
      rw [hstep, ih (descUpdate d r), descUpdate_eq]
      cases h : lastDescO σ <;> simp [lastDescO, pushedIds, h]
    | push ids =>
      have hstep : applyK p (some r) (KOp.push ids :: σ) =
          applyK p (some (pushUpdate ids r)) σ := rfl
      rw [hstep, ih (pushUpdate ids r)]
      simp [pushUpdate, lastDescO, pushedIds, List.foldl_append]

theorem mem_unique_push (l : List String) (v a : String) (h : a ∈ l) :
    a ∈ _unique_push l v := by
  unfold _unique_push
  split_ifs <;> simp [h]

theorem mem_foldl_unique_push (l ids : List String) (a : String) (h : a ∈ l) :
    a ∈ List.foldl _unique_push l ids := by
  induction ids generalizing l with
  | nil => simpa
  | cons i t ih => exact ih _ (mem_unique_push l i a h)

theorem pushed_mem_foldl (l ids : List String) (a : String) (h : a ∈ ids) :
    a ∈ List.foldl _unique_push l ids := by
  induction ids generalizing l with
  | nil => cases h
  | cons i t ih =>
    rcases List.mem_cons.mp h with h' | h'
    · subst h'
      rw [List.foldl_cons]
      apply mem_foldl_unique_push
      unfold _unique_push
      split_ifs with hm
      · exact hm
      · simp
    · exact ih _ h'

theorem foldl_unique_push_id (l ids : List String) (h : ∀ a ∈ ids, a ∈ l) :
    List.foldl _unique_push l ids = l := by
  induction ids with
  | nil => rfl
  | cons i t ih =>
    have hstep : _unique_push l i = l := by
      unfold _unique_push
      simp [h i (by simp)]
    rw [List.foldl_cons, hstep, ih (fun a ha => h a (by simp [ha]))]

/-- A same-key write sequence is idempotent on a present record. -/
theorem applyK_some_idem (p : Path) (r : ShelfRecord) (σ : List KOp) :
    applyK p (applyK p (some r) σ) σ = applyK p (some r) σ := by
  rw [applyK_some, applyK_some]
  have hpush : List.foldl _unique_push
      (List.foldl _unique_push r.nodes_ref (pushedIds σ)) (pushedIds σ) =
      List.foldl _unique_push r.nodes_ref (pushedIds σ) :=
    foldl_unique_push_id _ _ (fun a ha => pushed_mem_foldl _ _ a ha)
  cases h : lastDescO σ <;> simp [h, hpush]

/-- Monotonicity of the well-formedness check in the seen-`ensure` flag. -/
theorem wfOps_true_of (σ : List KOp) (b : Bool) (h : wfOps b σ = true) :
    wfOps true σ = true := by
  cases b
  · induction σ with
    | nil => rfl
    | cons op rest ih =>
      cases op with
      | ensure => exact h
      | desc d => simp [wfOps] at h
      | push ids => simp [wfOps] at h
  · exact h

theorem wfOps_append (σ₁ σ₂ : List KOp) (b : Bool) (h1 : wfOps b σ₁ = true)
    (h2 : wfOps b σ₂ = true) : wfOps b (σ₁ ++ σ₂) = true := by
  induction σ₁ generalizing b with
  | nil => simpa
  | cons op rest ih =>
    cases op with
    | ensure =>
      exact ih true h1 (wfOps_true_of σ₂ b h2)
    | desc d =>
      rw [show wfOps b (KOp.desc d :: rest) = (b && wfOps b rest) from rfl,
        Bool.and_eq_true] at h1
      obtain ⟨hb, hr⟩ := h1
      subst hb
      have hrec := ih true hr h2
      simpa [wfOps] using hrec
    | push ids =>
      rw [show wfOps b (KOp.push ids :: rest) = (b && wfOps b rest) from rfl,
        Bool.and_eq_true] at h1
      obtain ⟨hb, hr⟩ := h1
      subst hb
      have hrec := ih true hr h2
      simpa [wfOps] using hrec

theorem projK_append (a b : List (Path × KOp)) (p : Path) :
    projK (a ++ b) p = projK a p ++ projK b p := by
  induction a with
  | nil => rfl
  | cons w rest ih =>
    obtain ⟨k, op⟩ := w
    by_cases hk : k = p <;> simp [projK, hk, ih]

theorem projK_mapEnsure (l : List Path) (p : Path) :
    ∃ n, projK (l.map (fun k => (k, KOp.ensure))) p =
      List.replicate n KOp.ensure := by
  induction l with
  | nil => exact ⟨0, rfl⟩
  | cons k rest ih =>
    obtain ⟨n, hn⟩ := ih
    by_cases hk : k = p
    · exact ⟨n + 1, by simp [projK, hk, hn, List.replicate_succ]⟩
    · exact ⟨n, by simp [projK, hk, hn]⟩

theorem projK_mapEnsure_pos (l : List Path) (p : Path) (h : p ∈ l) :
    ∃ n, projK (l.map (fun k => (k, KOp.ensure))) p =
      List.replicate (n + 1) KOp.ensure := by
  induction l with
  | nil => cases h
  | cons k rest ih =>
    by_cases hk : k = p
    · obtain ⟨n, hn⟩ := projK_mapEnsure rest p
      exact ⟨n, by simp [projK, hk, hn, List.replicate_succ]⟩
    · rcases List.mem_cons.mp h with h' | h'
      · exact absurd h'.symm hk
      · obtain ⟨n, hn⟩ := ih h'
        exact ⟨n, by simp [projK, hk, hn]⟩

theorem self_mem_pathSteps (q : Path) (h : q ≠ []) : q ∈ pathSteps q := by
  unfold pathSteps
  have hl : 0 < q.length := List.length_pos.mpr h
  refine List.mem_map.mpr ⟨q.length - 1, List.mem_range.mpr (by omega), ?_⟩
  have he : q.length - 1 + 1 = q.length := by omega
  rw [he, List.take_length]

theorem wfOps_true_replicate (n : ℕ) (rest : List KOp) :
    wfOps true (List.replicate n KOp.ensure ++ rest) = wfOps true rest := by
  induction n with
  | zero => rfl
  | succ m ih => simpa [List.replicate_succ, wfOps] using ih

theorem wfOps_false_replicate (n : ℕ) (rest : List KOp)
    (h : wfOps false rest = true) :
    wfOps false (List.replicate n KOp.ensure ++ rest) = true := by
  cases n with
  | zero => simpa
  | succ m =>
    rw [List.replicate_succ]
    show wfOps true (List.replicate m KOp.ensure ++ rest) = true
    rw [wfOps_true_replicate]
    exact wfOps_true_of rest false h

theorem projK_ensureOps_ex (q p : Path) :
    ∃ n, projK (ensureOps q) p = List.replicate n KOp.ensure :=
  projK_mapEnsure (pathSteps q) p

theorem projK_ensureOps_self (q : Path) (h : q ≠ []) :
    ∃ n, projK (ensureOps q) q = List.replicate (n + 1) KOp.ensure :=
  projK_mapEnsure_pos (pathSteps q) q (self_mem_pathSteps q h)

mutual

/-- Every key's projection of a shelf's write sequence is well-formed: any
description or node-id write is preceded by the creation of its key. -/
theorem shelfWrites_wf (s : Shelf) (parent : Path) (p : Path) :
    wfOps false (projK (shelfWrites s parent) p) = true := by
  match s with
  | .mk n d nds subs =>
    rw [shelfWrites]
    by_cases hp : p = parent ++ [n]
    · subst hp
      obtain ⟨m, hm⟩ := projK_ensureOps_self (parent ++ [n]) (by simp)
      have hmid : projK [(parent ++ [n], KOp.desc d),
          (parent ++ [n], KOp.push nds)] (parent ++ [n]) =
          [KOp.desc d, KOp.push nds] := by
        simp [projK]
      rw [projK_append, projK_append, hm, hmid, List.append_assoc,
        List.replicate_succ, List.cons_append]
      show wfOps true (List.replicate m KOp.ensure ++
        ([KOp.desc d, KOp.push nds] ++
          projK (subWrites subs (parent ++ [n])) (parent ++ [n]))) = true
      rw [wfOps_true_replicate]
      show (true && (true && wfOps true
        (projK (subWrites subs (parent ++ [n])) (parent ++ [n])))) = true
      simp only [Bool.true_and]
      exact wfOps_true_of _ false (subWrites_wf subs (parent ++ [n]) _)
    · have hp' : ¬(parent ++ [n] = p) := fun h => hp h.symm
      obtain ⟨m, hm⟩ := projK_ensureOps_ex (parent ++ [n]) p
      have hmid : projK [(parent ++ [n], KOp.desc d),
          (parent ++ [n], KOp.push nds)] p = [] := by
        simp [projK, hp']
      rw [projK_append, projK_append, hm, hmid, List.append_nil]
      exact wfOps_false_replicate m _ (subWrites_wf subs (parent ++ [n]) p)

theorem subWrites_wf (subs : List Shelf) (q p : Path) :
    wfOps false (projK (subWrites subs q) p) = true := by
  match subs with
  | [] => rfl
  | s :: rest =>
    rw [subWrites, projK_append]
    exact wfOps_append _ _ false (shelfWrites_wf s q p) (subWrites_wf rest q p)

end

/-- A well-formed same-key write sequence is idempotent on a missing
record. -/
theorem applyK_none_idem (p : Path) (σ : List KOp)
    (h : wfOps false σ = true) :
    applyK p (applyK p none σ) σ = applyK p none σ := by
  cases σ with
  | nil => rfl
  | cons op rest =>
    cases op with
    | ensure =>
      have h1 : applyK p none (KOp.ensure :: rest) =
          applyK p (some (defaultRecord p)) rest := rfl
      rw [h1, applyK_some p (defaultRecord p) rest]
      have h2 : ∀ R : ShelfRecord, applyK p (some R) (KOp.ensure :: rest) =
          applyK p (some R) rest := fun R => rfl
      rw [h2, ← applyK_some p (defaultRecord p) rest]
      exact applyK_some_idem p (defaultRecord p) rest
    | desc d => simp [wfOps] at h
    | push ids => simp [wfOps] at h

/-- A well-formed same-key write sequence is idempotent. -/
theorem applyK_idem (p : Path) (v : Option ShelfRecord) (σ : List KOp)
    (h : wfOps false σ = true) :
    applyK p (applyK p v σ) σ = applyK p v σ := by
  cases v with
  | none => exact applyK_none_idem p σ h
  | some r => exact applyK_some_idem p r σ

/-- C7: merging the same shelf tree into the library twice yields, at every
path, exactly the same record (description and node-id list) as merging it
once. -/
theorem C7_add_shelf_idempotent (L : Records) (s : Shelf) (p : Path) :
    lookupRec (add_shelf (add_shelf L s) s) p = lookupRec (add_shelf L s) p := by
  unfold add_shelf
  rw [add_factor, add_factor, lookupRec_applyOps, lookupRec_applyOps]
  exact applyK_idem p (lookupRec L p) (projK (shelfWrites s []) p)
    (shelfWrites_wf s [] p)

/-! ## Theorems about the class registry and shelf search -/

/-- Helper: rewriting a key of a registry with the value it already holds
leaves the registry unchanged. -/
theorem setReg_self (reg : Registry) (k : String) (c : NodeClass)
    (h : lookupReg reg k = some c) : setReg reg k c = reg := by
  induction reg with
  | nil => rfl
  | cons kc rest ih =>
    obtain ⟨k', c'⟩ := kc
    by_cases hk : k' = k
    · subst hk
      simp [lookupReg] at h
      simp [setReg, h]
    · simp [lookupReg, hk] at h
      simp [setReg, hk, ih h]

/-- C6: for an id that is present (and resolvable) in the registry,
registering a class whose defining module plus class name differs from the
stored entry raises `NodeIdAlreadyExistsError` and leaves the registry
unchanged, while re-registering a class with the stored entry's defining
module, class name and node id succeeds and is a no-op. -/
theorem C6_register_node_conflict (reg : Registry) (c old : NodeClass)
    (h : lookupReg reg c.nodeId = some old) :
    (old.module ++ old.clsName ≠ c.module ++ c.clsName →
      register_node reg c = (reg, some .nodeIdAlreadyExists)) ∧
    (old.module = c.module → old.clsName = c.clsName → old.nodeId = c.nodeId →
      register_node reg c = (reg, none)) := by
  constructor
  · intro hne
    simp [register_node, h, hne]
  · intro h1 h2 h3
    have hc : old = c := by
      cases old; cases c; simp_all
    subst hc
    simp [register_node, h, setReg_self reg _ _ h]

/-- C6 witness: a one-entry registry and a re-registration of the same
class. -/
theorem C6_register_node_conflict_witness :
    lookupReg [("nid", ⟨"m", "A", "nid"⟩)]
        (NodeClass.mk "m" "A" "nid").nodeId = some ⟨"m", "A", "nid"⟩ ∧
    (((NodeClass.mk "m" "A" "nid").module ++ (NodeClass.mk "m" "A" "nid").clsName ≠
        (NodeClass.mk "m" "A" "nid").module ++ (NodeClass.mk "m" "A" "nid").clsName →
      register_node [("nid", ⟨"m", "A", "nid"⟩)] ⟨"m", "A", "nid"⟩ =
        ([("nid", ⟨"m", "A", "nid"⟩)], some .nodeIdAlreadyExists)) ∧
     ((NodeClass.mk "m" "A" "nid").module = (NodeClass.mk "m" "A" "nid").module →
      (NodeClass.mk "m" "A" "nid").clsName = (NodeClass.mk "m" "A" "nid").clsName →
      (NodeClass.mk "m" "A" "nid").nodeId = (NodeClass.mk "m" "A" "nid").nodeId →
      register_node [("nid", ⟨"m", "A", "nid"⟩)] ⟨"m", "A", "nid"⟩ =
        ([("nid", ⟨"m", "A", "nid"⟩)], none))) :=
  ⟨by decide,
    C6_register_node_conflict [("nid", ⟨"m", "A", "nid"⟩)] ⟨"m", "A", "nid"⟩
      ⟨"m", "A", "nid"⟩ (by decide)⟩

/-- Helper: the scan of `find_nodeid` with `all = True` returns exactly the
paths of the records whose `nodes_ref` contains the id. -/
theorem findLoop_mem (nid : String) (recs : Records) (p : Path) :
    p ∈ findLoop nid true recs ↔
      ∃ r, (p, r) ∈ recs ∧ nid ∈ r.nodes_ref := by
  induction recs with
  | nil => simp [findLoop]
  | cons kr rest ih =>
    obtain ⟨k, r⟩ := kr
    by_cases hm : nid ∈ r.nodes_ref
    · have hstep : findLoop nid true ((k, r) :: rest) =
          k :: findLoop nid true rest := by
        simp [findLoop, hm]
      rw [hstep]
      simp only [List.mem_cons]
      constructor
      · rintro (hp | hp)
        · exact ⟨r, Or.inl (by rw [hp]), hm⟩
        · obtain ⟨r', hr', hm'⟩ := ih.mp hp
          exact ⟨r', Or.inr hr', hm'⟩
      · rintro ⟨r', h' | h', hm'⟩
        · injection h' with h1 h2
          exact Or.inl h1
        · exact Or.inr (ih.mpr ⟨r', h', hm'⟩)
    · have hstep : findLoop nid true ((k, r) :: rest) =
          findLoop nid true rest := by
        simp [findLoop, hm]
      rw [hstep, ih]
      constructor
      · rintro ⟨r', hr', hm'⟩
        exact ⟨r', List.mem_cons_of_mem _ hr', hm'⟩
      · rintro ⟨r', hr', hm'⟩
        rcases List.mem_cons.mp hr' with h' | h'
        · injection h' with h1 h2
          subst h2
          exact absurd hm' hm
        · exact ⟨r', h', hm'⟩

/-- C8: an id stored in some shelf record but not currently resolvable in the
class registry yields no hits from `find_nodeid` (the records are only read,
so the stored id is untouched); once the id resolves again, `find_nodeid`
returns exactly the paths whose record contains it. -/
theorem C8_find_nodeid_visibility (reg : Registry) (recs : Records)
    (nid : String) :
    (lookupReg reg nid = none → find_nodeid reg recs nid true = []) ∧
    ((lookupReg reg nid).isSome →
      ∀ p, p ∈ find_nodeid reg recs nid true ↔
        ∃ r, (p, r) ∈ recs ∧ nid ∈ r.nodes_ref) := by
  constructor
  · intro h
    simp [find_nodeid, h]
  · intro h p
    rw [Option.isSome_iff_exists] at h
    obtain ⟨c, hc⟩ := h
    simp only [find_nodeid, hc, Option.isNone_some, Bool.false_eq_true,
      if_false]
    exact findLoop_mem nid recs p

/-- C8 witness: a registry resolving `"nid"` and one shelf record holding
it. -/
theorem C8_find_nodeid_visibility_witness :
    (lookupReg [("nid", ⟨"m", "A", "nid"⟩)] "nid").isSome = true ∧
    (["shelf"] ∈
        find_nodeid [("nid", ⟨"m", "A", "nid"⟩)]
          [(["shelf"], (⟨"shelf", "", ["nid"]⟩ : ShelfRecord))] "nid" true ↔
      ∃ r, (["shelf"], r) ∈
          [(["shelf"], (⟨"shelf", "", ["nid"]⟩ : ShelfRecord))] ∧
        "nid" ∈ r.nodes_ref) :=
  ⟨by decide,
    (C8_find_nodeid_visibility [("nid", ⟨"m", "A", "nid"⟩)]
        [(["shelf"], (⟨"shelf", "", ["nid"]⟩ : ShelfRecord))] "nid").2
      (by decide) ["shelf"]⟩

/-- C10 witness: default delay `1/100` (the 10 ms config default), a negative
construction argument and a negative setter argument. -/
theorem C10_pretrigger_delay_witness :
    (0:ℚ) ≤ 1/100 ∧ (0:ℚ) ≤ 0 ∧
    ((∀ x, (some (-1 : ℚ)) = some x → x < 0 →
        init_pretrigger_delay (1/100) (some (-1)) = 1/100) ∧
     0 ≤ init_pretrigger_delay (1/100) (some (-1)) ∧
     (∀ x, (some (-2 : ℚ)) = some x → x < 0 →
        set_pretrigger_delay (1/100) 0 (some (-2)) = (0, some ())) ∧
     0 ≤ (set_pretrigger_delay (1/100) 0 (some (-2))).1) :=
  ⟨by norm_num, le_refl 0,
    C10_pretrigger_delay (1/100) (by norm_num) (some (-1)) 0 (le_refl 0)
      (some (-2))⟩

end FuncnodesCore
